import Mathlib

/-!
Verification of the pronunciation alignment-and-scoring engine
(`services/ml-service/app/services/pronunciation_service.py`).

The engine normalizes both texts, aligns the word sequences with
`difflib.SequenceMatcher.get_opcodes`, classifies each expected word by
walking the opcodes (with partial credit from `SequenceMatcher.ratio` on
substituted words), and combines accuracy and a length-ratio fluency band
into an overall score with five-tier feedback.

Scores are modelled over `ℚ` (the spec treats them as real numbers);
Python's `round(x, 1)` is modelled as exact half-to-even rounding to one
decimal place.  Indexing that Python performs without a bounds check is
modelled in the `Option` monad, so that the absence of `IndexError` is a
provable statement.
-/

namespace Pron

/-- One per-word diagnostic entry, mirroring the dict literals appended to
`word_errors` in `PronunciationService._score`. -/
structure WordError where
  word : String
  expected : String
  spoken : String
  position : Nat
  is_correct : Bool
deriving DecidableEq, Repr

/-- The result record returned by `PronunciationService._score`. -/
structure EvalResult where
  overall_score : ℚ
  accuracy_score : ℚ
  fluency_score : ℚ
  word_errors : List WordError
  feedback : String
  spoken_text : String
  expected_text : String
deriving DecidableEq, Repr

/-! ## Embedding of `difflib.SequenceMatcher` (CPython, `isjunk=None`)

Only the parts the service uses are embedded: `get_opcodes` (word-level
alignment) and `ratio` (character-level similarity).  With `isjunk=None`
the junk set `bjunk` is empty, so the two junk-extension loops of
`find_longest_match` are no-ops and are omitted; the two non-junk
extension loops are embedded (their `not isbjunk(...)` conjunct is
constantly true).  `autojunk` (popular-entry pruning, active only when
`len(b) >= 200`) is embedded in `b2j`. -/

namespace Difflib

variable {α : Type} [DecidableEq α]

/-- A matching block `(i, j, size)`: `a[i:i+size] == b[j:j+size]`. -/
structure FMatch where
  i : Nat
  j : Nat
  size : Nat
deriving DecidableEq, Repr

/-- Opcode tags of `SequenceMatcher.get_opcodes`. -/
inductive Tag where
  | equal
  | replace
  | delete
  | insert
deriving DecidableEq, Repr

/-- One opcode `(tag, i1, i2, j1, j2)`. -/
structure Opcode where
  tag : Tag
  i1 : Nat
  i2 : Nat
  j1 : Nat
  j2 : Nat
deriving DecidableEq, Repr

/-- The increasing list of positions of `x` in `b` (the value list of the
`b2j` dict built by `__chain_b` before junk pruning). -/
def indicesOf (b : List α) (x : α) : List Nat :=
  (List.range b.length).filter (fun j => b.get? j = some x)

/-- `autojunk` pruning of `__chain_b`: with `autojunk=True`, when
`len(b) >= 200` every element occurring in more than `len(b) // 100 + 1`
positions is removed from `b2j`. -/
def isPopular (b : List α) (x : α) : Bool :=
  decide (200 ≤ b.length) && decide (b.length / 100 + 1 < b.count x)

/-- `b2j.get(x, [])` as used by the inner loop of `find_longest_match`. -/
def b2j (b : List α) (x : α) : List Nat :=
  if isPopular b x then [] else indicesOf b x

/-- Equality test of two optional elements; used by the extension loops of
`find_longest_match`, where Python compares `a[...] == b[...]` on indices
that are in range whenever the loop guards hold. -/
def optEq (x y : Option α) : Bool :=
  match x, y with
  | some u, some v => decide (u = v)
  | _, _ => false

/-- Inner loop of `find_longest_match` over the candidate column list
`b2j.get(a[i], [])`: `continue` below `blo`, `break` at `bhi`, otherwise
extend the run ending at `(i, j)` and update the best block.  `j2len` is
the previous row's run-length map (`j2len.get(j-1, 0)`; the Python key
`-1` is never present, hence the `j = 0` case), `acc` the new row's map
being built.  Python computes `besti = i - k + 1` on ints; here
`i + 1 - k` on `ℕ`, equal since `k ≤ i + 1` for every stored run. -/
def flmInner (blo bhi : Nat) (j2len : Nat → Nat) (i : Nat) :
    List Nat → (Nat → Nat) → FMatch → ((Nat → Nat) × FMatch)
  | [], acc, best => (acc, best)
  | j :: js, acc, best =>
    if j < blo then
      flmInner blo bhi j2len i js acc best
    else if bhi ≤ j then
      (acc, best)
    else
      let k := (if j = 0 then 0 else j2len (j - 1)) + 1
      let acc2 : Nat → Nat := fun j2 => if j2 = j then k else acc j2
      let best2 := if best.size < k then (⟨i + 1 - k, j + 1 - k, k⟩ : FMatch) else best
      flmInner blo bhi j2len i js acc2 best2

/-- Row loop of `find_longest_match` over `i in range(alo, ahi)`. -/
def flmRows (a : List α) (bj : α → List Nat) (blo bhi : Nat) :
    List Nat → (Nat → Nat) → FMatch → FMatch
  | [], _, best => best
  | i :: is, j2len, best =>
    let js := match a.get? i with
      | some x => bj x
      | none => []
    let r := flmInner blo bhi j2len i js (fun _ => 0) best
    flmRows a bj blo bhi is r.1 r.2

/-- First extension loop of `find_longest_match`: grow the best block
leftwards over equal elements (with `isjunk=None` the junk conjunct is
vacuous).  The loop decrements `best.i` by one per iteration and its guard
requires `alo < best.i`, so running it with `fuel = best.i` is exact: the
fuel can only hit `0` together with `best.i`, where the guard is false. -/
def extLeftGo (a b : List α) (alo blo : Nat) : Nat → FMatch → FMatch
  | 0, best => best
  | fuel + 1, best =>
    if alo < best.i ∧ blo < best.j ∧
        optEq (a.get? (best.i - 1)) (b.get? (best.j - 1)) = true then
      extLeftGo a b alo blo fuel ⟨best.i - 1, best.j - 1, best.size + 1⟩
    else
      best

def extLeft (a b : List α) (alo blo : Nat) (best : FMatch) : FMatch :=
  extLeftGo a b alo blo best.i best

/-- Second extension loop of `find_longest_match`: grow the best block
rightwards over equal elements.  Each iteration increments `best.size`,
and the guard requires `best.i + best.size < ahi`, so
`fuel = ahi - (best.i + best.size)` is exact in the same sense. -/
def extRightGo (a b : List α) (ahi bhi : Nat) : Nat → FMatch → FMatch
  | 0, best => best
  | fuel + 1, best =>
    if best.i + best.size < ahi ∧ best.j + best.size < bhi ∧
        optEq (a.get? (best.i + best.size)) (b.get? (best.j + best.size)) = true then
      extRightGo a b ahi bhi fuel ⟨best.i, best.j, best.size + 1⟩
    else
      best

def extRight (a b : List α) (ahi bhi : Nat) (best : FMatch) : FMatch :=
  extRightGo a b ahi bhi (ahi - (best.i + best.size)) best

/-- `SequenceMatcher.find_longest_match(alo, ahi, blo, bhi)`. -/
def find_longest_match (a b : List α) (alo ahi blo bhi : Nat) : FMatch :=
  let best := flmRows a (b2j b) blo bhi (List.range' alo (ahi - alo)) (fun _ => 0)
    ⟨alo, blo, 0⟩
  extRight a b ahi bhi (extLeft a b alo blo best)

/-- Well-formedness of a best-match candidate: either it is still the
initial `(alo, blo, 0)`, or its block lies inside the search rectangle. -/
def FMatchOK (alo ahi blo bhi : Nat) (m : FMatch) : Prop :=
  (m.size = 0 → m = ⟨alo, blo, 0⟩) ∧
  (m.size ≠ 0 → alo ≤ m.i ∧ m.i + m.size ≤ ahi ∧ blo ≤ m.j ∧ m.j + m.size ≤ bhi)

/-- Invariant of a run-length map after processing the rows `[alo, iNext)`:
every stored run fits between `blo` and its own column, and is no longer
than the number of rows processed. -/
def J2LOK (alo blo iNext : Nat) (f : Nat → Nat) : Prop :=
  ∀ j, f j ≠ 0 → blo ≤ j ∧ f j ≤ j + 1 - blo ∧ f j ≤ iNext - alo

theorem flmInner_ok {alo ahi blo bhi : Nat} {j2len : Nat → Nat} {i : Nat}
    (hJ : J2LOK alo blo i j2len) (hilo : alo ≤ i) (hihi : i < ahi) :
    ∀ js acc best, J2LOK alo blo (i + 1) acc → FMatchOK alo ahi blo bhi best →
      J2LOK alo blo (i + 1) (flmInner blo bhi j2len i js acc best).1 ∧
      FMatchOK alo ahi blo bhi (flmInner blo bhi j2len i js acc best).2 := by
  intro js
  induction js with
  | nil => intro acc best hA hB; exact ⟨hA, hB⟩
  | cons j js ih =>
    intro acc best hA hB
    by_cases h1 : j < blo
    · simpa [flmInner, h1] using ih acc best hA hB
    · by_cases h2 : bhi ≤ j
      · simpa [flmInner, h1, h2] using ⟨hA, hB⟩
      · set k := (if j = 0 then 0 else j2len (j - 1)) + 1 with hkdef
        have hk1 : 1 ≤ k := by rw [hkdef]; omega
        have hk2 : k ≤ j + 1 - blo := by
          rw [hkdef]
          by_cases hj0 : j = 0
          · subst hj0; simp; omega
          · simp only [if_neg hj0]
            by_cases hv : j2len (j - 1) = 0
            · rw [hv]; omega
            · have := hJ (j - 1) hv
              omega
        have hk3 : k ≤ i + 1 - alo := by
          rw [hkdef]
          by_cases hj0 : j = 0
          · subst hj0; simp; omega
          · simp only [if_neg hj0]
            by_cases hv : j2len (j - 1) = 0
            · rw [hv]; omega
            · have := hJ (j - 1) hv
              omega
        have hAcc2 : J2LOK alo blo (i + 1)
            (fun j2 => if j2 = j then k else acc j2) := by
          intro j2 hne
          by_cases hjj : j2 = j
          · subst hjj
            simp only [if_pos rfl] at hne ⊢
            exact ⟨by omega, hk2, hk3⟩
          · simp only [if_neg hjj] at hne ⊢
            exact hA j2 hne
        have hBest2 : FMatchOK alo ahi blo bhi
            (if best.size < k then (⟨i + 1 - k, j + 1 - k, k⟩ : FMatch) else best) := by
          by_cases hlt : best.size < k
          · rw [if_pos hlt]
            refine ⟨fun h0 => ?_, fun _ => ⟨?_, ?_, ?_, ?_⟩⟩
            · have hk0 : k = 0 := h0
              omega
            · show alo ≤ i + 1 - k
              omega
            · show i + 1 - k + k ≤ ahi
              omega
            · show blo ≤ j + 1 - k
              omega
            · show j + 1 - k + k ≤ bhi
              omega
          · rw [if_neg hlt]; exact hB
        have := ih (fun j2 => if j2 = j then k else acc j2)
          (if best.size < k then (⟨i + 1 - k, j + 1 - k, k⟩ : FMatch) else best)
          hAcc2 hBest2
        simpa [flmInner, h1, h2, ← hkdef] using this

omit [DecidableEq α] in
theorem flmRows_ok {a : List α} {bj : α → List Nat} {alo ahi blo bhi : Nat} :
    ∀ (n i0 : Nat) (j2len : Nat → Nat) (best : FMatch), alo ≤ i0 → i0 + n ≤ ahi →
      J2LOK alo blo i0 j2len → FMatchOK alo ahi blo bhi best →
      FMatchOK alo ahi blo bhi
        (flmRows a bj blo bhi (List.range' i0 n) j2len best) := by
  intro n
  induction n with
  | zero => intro i0 j2len best _ _ _ hB; simpa [flmRows] using hB
  | succ n ih =>
    intro i0 j2len best hlo hhi hJ hB
    rw [List.range'_succ]
    have hJ0 : J2LOK alo blo (i0 + 1) (fun _ => 0) := by
      intro j hj; simp at hj
    have hihi : i0 < ahi := by omega
    have h := flmInner_ok hJ hlo hihi
      (match a.get? i0 with | some x => bj x | none => []) (fun _ => 0) best hJ0 hB
    have hJ1 : J2LOK alo blo (i0 + 1)
        (flmInner blo bhi j2len i0
          (match a.get? i0 with | some x => bj x | none => []) (fun _ => 0) best).1 :=
      h.1
    have hB1 := h.2
    simpa [flmRows] using ih (i0 + 1) _ _ (by omega) (by omega) hJ1 hB1

theorem extLeftGo_ok {a b : List α} {alo ahi blo bhi : Nat} :
    ∀ (fuel : Nat) (best : FMatch), FMatchOK alo ahi blo bhi best →
      FMatchOK alo ahi blo bhi (extLeftGo a b alo blo fuel best) := by
  intro fuel
  induction fuel with
  | zero => intro best hB; exact hB
  | succ fuel ih =>
    intro best hB
    rw [extLeftGo]
    split
    · next h =>
      obtain ⟨hg1, hg2, -⟩ := h
      have hs : best.size ≠ 0 := by
        intro h0
        have heq := hB.1 h0
        have hia : best.i = alo := by rw [heq]
        omega
      obtain ⟨hb1, hb2, hb3, hb4⟩ := hB.2 hs
      refine ih ⟨best.i - 1, best.j - 1, best.size + 1⟩
        ⟨fun h0 => ?_, fun _ => ⟨?_, ?_, ?_, ?_⟩⟩
      · have hk0 : best.size + 1 = 0 := h0
        omega
      · show alo ≤ best.i - 1
        omega
      · show best.i - 1 + (best.size + 1) ≤ ahi
        omega
      · show blo ≤ best.j - 1
        omega
      · show best.j - 1 + (best.size + 1) ≤ bhi
        omega
    · exact hB

theorem extLeft_ok {a b : List α} {alo ahi blo bhi : Nat} (best : FMatch)
    (hB : FMatchOK alo ahi blo bhi best) :
    FMatchOK alo ahi blo bhi (extLeft a b alo blo best) :=
  extLeftGo_ok best.i best hB

theorem extRightGo_ok {a b : List α} {alo ahi blo bhi : Nat} :
    ∀ (fuel : Nat) (best : FMatch), FMatchOK alo ahi blo bhi best →
      FMatchOK alo ahi blo bhi (extRightGo a b ahi bhi fuel best) := by
  intro fuel
  induction fuel with
  | zero => intro best hB; exact hB
  | succ fuel ih =>
    intro best hB
    rw [extRightGo]
    split
    · next h =>
      obtain ⟨hg1, hg2, -⟩ := h
      have hnew : FMatchOK alo ahi blo bhi ⟨best.i, best.j, best.size + 1⟩ := by
        refine ⟨fun h0 => ?_, fun _ => ?_⟩
        · have hk0 : best.size + 1 = 0 := h0
          omega
        · by_cases hs : best.size = 0
          · have heq := hB.1 hs
            have hia : best.i = alo := by rw [heq]
            have hja : best.j = blo := by rw [heq]
            refine ⟨?_, ?_, ?_, ?_⟩
            · show alo ≤ best.i
              omega
            · show best.i + (best.size + 1) ≤ ahi
              omega
            · show blo ≤ best.j
              omega
            · show best.j + (best.size + 1) ≤ bhi
              omega
          · obtain ⟨hb1, hb2, hb3, hb4⟩ := hB.2 hs
            refine ⟨hb1, ?_, hb3, ?_⟩
            · show best.i + (best.size + 1) ≤ ahi
              omega
            · show best.j + (best.size + 1) ≤ bhi
              omega
      exact ih ⟨best.i, best.j, best.size + 1⟩ hnew
    · exact hB

theorem extRight_ok {a b : List α} {alo ahi blo bhi : Nat} (best : FMatch)
    (hB : FMatchOK alo ahi blo bhi best) :
    FMatchOK alo ahi blo bhi (extRight a b ahi bhi best) :=
  extRightGo_ok _ best hB

theorem find_longest_match_ok (a b : List α) (alo ahi blo bhi : Nat) :
    FMatchOK alo ahi blo bhi (find_longest_match a b alo ahi blo bhi) := by
  have hB0 : FMatchOK alo ahi blo bhi ⟨alo, blo, 0⟩ :=
    ⟨fun _ => rfl, fun h => absurd rfl h⟩
  have hJ0 : J2LOK alo blo alo (fun _ => 0) := by intro j hj; simp at hj
  rcases Nat.le_total alo ahi with hle | hlt
  · have hrows : FMatchOK alo ahi blo bhi
        (flmRows a (b2j b) blo bhi (List.range' alo (ahi - alo)) (fun _ => 0)
          ⟨alo, blo, 0⟩) :=
      flmRows_ok (ahi - alo) alo (fun _ => 0) ⟨alo, blo, 0⟩ (le_refl _) (by omega) hJ0 hB0
    exact extRight_ok _ (extLeft_ok _ hrows)
  · by_cases heq : ahi = alo
    · subst heq
      have hrows : FMatchOK ahi ahi blo bhi
          (flmRows a (b2j b) blo bhi (List.range' ahi (ahi - ahi)) (fun _ => 0)
            ⟨ahi, blo, 0⟩) :=
        flmRows_ok (ahi - ahi) ahi (fun _ => 0) ⟨ahi, blo, 0⟩ (le_refl _) (by omega) hJ0 hB0
      exact extRight_ok _ (extLeft_ok _ hrows)
    · have h0 : ahi - alo = 0 := by omega
      rw [find_longest_match, h0]
      simp only [List.range'_zero, flmRows]
      exact extRight_ok _ (extLeft_ok _ hB0)

/-- `SequenceMatcher.get_matching_blocks` (recursive core).  The CPython
implementation drives an explicit work queue and sorts the collected
blocks afterwards; since every block found in the left sub-rectangle
precedes the middle block, which precedes every block of the right
sub-rectangle (strictly, in the first component), in-order recursion
produces exactly that sorted list.  Recursion is on a fuel bounding the
rectangle half-perimeter `(ahi - alo) + (bhi - blo)`: by
`find_longest_match_ok`, a nonempty best block makes both sub-rectangles
strictly smaller in that measure, so starting from half-perimeter `+ 1`
the fuel can never be exhausted and the `fuel = 0` branch is
unreachable. -/
def mbRecGo (a b : List α) : Nat → Nat → Nat → Nat → Nat → List FMatch
  | 0, _, _, _, _ => []
  | fuel + 1, alo, ahi, blo, bhi =>
    if (find_longest_match a b alo ahi blo bhi).size = 0 then []
    else
      (if alo < (find_longest_match a b alo ahi blo bhi).i ∧
          blo < (find_longest_match a b alo ahi blo bhi).j then
        mbRecGo a b fuel alo (find_longest_match a b alo ahi blo bhi).i
          blo (find_longest_match a b alo ahi blo bhi).j
      else []) ++
      find_longest_match a b alo ahi blo bhi ::
      (if (find_longest_match a b alo ahi blo bhi).i +
            (find_longest_match a b alo ahi blo bhi).size < ahi ∧
          (find_longest_match a b alo ahi blo bhi).j +
            (find_longest_match a b alo ahi blo bhi).size < bhi then
        mbRecGo a b fuel
          ((find_longest_match a b alo ahi blo bhi).i +
            (find_longest_match a b alo ahi blo bhi).size) ahi
          ((find_longest_match a b alo ahi blo bhi).j +
            (find_longest_match a b alo ahi blo bhi).size) bhi
      else [])

def matching_blocks_rec (a b : List α) (alo ahi blo bhi : Nat) : List FMatch :=
  mbRecGo a b ((ahi - alo) + (bhi - blo) + 1) alo ahi blo bhi

/-- The adjacent-block collapsing loop at the end of
`get_matching_blocks` (`i1 = j1 = k1 = 0` initially; current pending
block `(i1, j1, k1)`). -/
def collapseFrom : Nat → Nat → Nat → List FMatch → List FMatch
  | i1, j1, k1, [] => if k1 ≠ 0 then [⟨i1, j1, k1⟩] else []
  | i1, j1, k1, m :: L =>
    if i1 + k1 = m.i ∧ j1 + k1 = m.j then
      collapseFrom i1 j1 (k1 + m.size) L
    else
      (if k1 ≠ 0 then [⟨i1, j1, k1⟩] else []) ++ collapseFrom m.i m.j m.size L

/-- `SequenceMatcher.get_matching_blocks`: recursion, collapse, then the
`(la, lb, 0)` terminator. -/
def get_matching_blocks (a b : List α) : List FMatch :=
  collapseFrom 0 0 0 (matching_blocks_rec a b 0 a.length 0 b.length) ++
    [⟨a.length, b.length, 0⟩]

/-- `SequenceMatcher.get_opcodes`, processing the matching blocks with
running counters `i`, `j`. -/
def opcodesFrom : Nat → Nat → List FMatch → List Opcode
  | _, _, [] => []
  | i, j, m :: L =>
    (if i < m.i ∧ j < m.j then [⟨Tag.replace, i, m.i, j, m.j⟩]
     else if i < m.i then [⟨Tag.delete, i, m.i, j, m.j⟩]
     else if j < m.j then [⟨Tag.insert, i, m.i, j, m.j⟩]
     else []) ++
    (if m.size ≠ 0 then [⟨Tag.equal, m.i, m.i + m.size, m.j, m.j + m.size⟩] else []) ++
    opcodesFrom (m.i + m.size) (m.j + m.size) L

/-- `SequenceMatcher.get_opcodes()`. -/
def get_opcodes (a b : List α) : List Opcode :=
  opcodesFrom 0 0 (get_matching_blocks a b)

/-- `SequenceMatcher.ratio()` via `difflib._calculate_ratio`:
`2 * matches / (len(a) + len(b))`, or `1.0` when both are empty. -/
def ratio (a b : List α) : ℚ :=
  let ms := ((get_matching_blocks a b).map FMatch.size).sum
  if a.length + b.length ≠ 0 then
    2 * (ms : ℚ) / ((a.length : ℚ) + (b.length : ℚ))
  else 1

/-! ### Structural invariant of the matching blocks

The blocks produced by `get_matching_blocks` are chained: each block lies
inside `[0, la) × [0, lb)` and starts no earlier than the end of the
previous one.  This is what makes the opcode list a tiling of both index
ranges. -/

/-- Blocks chained from running position `(i, j)` within upper bounds
`(la, lb)`. -/
def ChainInv : Nat → Nat → Nat → Nat → List FMatch → Prop
  | _, _, _, _, [] => True
  | i, la, j, lb, m :: L =>
    i ≤ m.i ∧ j ≤ m.j ∧ m.i + m.size ≤ la ∧ m.j + m.size ≤ lb ∧
      ChainInv (m.i + m.size) la (m.j + m.size) lb L

theorem ChainInv.weaken_lo {la lb : Nat} :
    ∀ {L : List FMatch} {x y i j : Nat},
      ChainInv x la y lb L → i ≤ x → j ≤ y → ChainInv i la j lb L
  | [], _, _, _, _, _, _, _ => trivial
  | _ :: _, _, _, _, _, h, hi, hj =>
    ⟨le_trans hi h.1, le_trans hj h.2.1, h.2.2.1, h.2.2.2.1, h.2.2.2.2⟩

theorem ChainInv.glue {la lb : Nat} :
    ∀ (L₁ : List FMatch) {L₂ : List FMatch} {i j x y : Nat},
      ChainInv i x j y L₁ → ChainInv x la y lb L₂ →
      i ≤ x → j ≤ y → x ≤ la → y ≤ lb →
      ChainInv i la j lb (L₁ ++ L₂) := by
  intro L₁
  induction L₁ with
  | nil =>
    intro L₂ i j x y _ h2 hix hjy _ _
    exact h2.weaken_lo hix hjy
  | cons m L₁ ih =>
    intro L₂ i j x y h1 h2 hix hjy hxla hylb
    obtain ⟨ha, hb, hc, hd, he⟩ := h1
    exact ⟨ha, hb, le_trans hc hxla, le_trans hd hylb, ih he h2 hc hd hxla hylb⟩

theorem mbRecGo_inv (a b : List α) :
    ∀ (fuel alo ahi blo bhi : Nat),
      ChainInv alo ahi blo bhi (mbRecGo a b fuel alo ahi blo bhi) := by
  intro fuel
  induction fuel with
  | zero => intro alo ahi blo bhi; trivial
  | succ fuel ih =>
    intro alo ahi blo bhi
    rw [mbRecGo]
    split
    · trivial
    · next hm =>
      obtain ⟨e1, e2, e3, e4⟩ := (find_longest_match_ok a b alo ahi blo bhi).2 hm
      refine ChainInv.glue _ ?_ ?_ e1 e3 (by omega) (by omega)
      · split
        · exact ih alo (find_longest_match a b alo ahi blo bhi).i blo
            (find_longest_match a b alo ahi blo bhi).j
        · trivial
      · refine ⟨le_refl _, le_refl _, e2, e4, ?_⟩
        split
        · exact ih ((find_longest_match a b alo ahi blo bhi).i +
              (find_longest_match a b alo ahi blo bhi).size) ahi
            ((find_longest_match a b alo ahi blo bhi).j +
              (find_longest_match a b alo ahi blo bhi).size) bhi
        · trivial

theorem matching_blocks_rec_inv (a b : List α) (alo ahi blo bhi : Nat) :
    ChainInv alo ahi blo bhi (matching_blocks_rec a b alo ahi blo bhi) :=
  mbRecGo_inv a b _ alo ahi blo bhi

theorem collapseFrom_inv {la lb : Nat} :
    ∀ (L : List FMatch) (i1 j1 k1 : Nat),
      ChainInv (i1 + k1) la (j1 + k1) lb L → i1 + k1 ≤ la → j1 + k1 ≤ lb →
      ChainInv i1 la j1 lb (collapseFrom i1 j1 k1 L) := by
  intro L
  induction L with
  | nil =>
    intro i1 j1 k1 _ hla hlb
    rw [collapseFrom]
    split
    · exact ⟨le_refl _, le_refl _, hla, hlb, trivial⟩
    · trivial
  | cons m L ih =>
    intro i1 j1 k1 hC hla hlb
    obtain ⟨ha, hb, hc, hd, he⟩ := hC
    rw [collapseFrom]
    split
    · next hmerge =>
      have h1 : i1 + (k1 + m.size) = m.i + m.size := by omega
      have h2 : j1 + (k1 + m.size) = m.j + m.size := by omega
      exact ih i1 j1 (k1 + m.size) (by rw [h1, h2]; exact he)
        (by omega) (by omega)
    · have hrec : ChainInv m.i la m.j lb (collapseFrom m.i m.j m.size L) :=
        ih m.i m.j m.size he hc hd
      split
      · next hk =>
        exact ⟨le_refl _, le_refl _, hla, hlb, hrec.weaken_lo ha hb⟩
      · next hk =>
        have hk0 : k1 = 0 := by omega
        subst hk0
        simpa using hrec.weaken_lo (by omega) (by omega)

theorem get_matching_blocks_inv (a b : List α) :
    ChainInv 0 a.length 0 b.length (get_matching_blocks a b) := by
  rw [get_matching_blocks]
  refine ChainInv.glue _ ?_ ?_ (Nat.zero_le _) (Nat.zero_le _) (le_refl _) (le_refl _)
  · have h1 : ChainInv (0 + 0) a.length (0 + 0) b.length
        (matching_blocks_rec a b 0 a.length 0 b.length) := by
      simpa using matching_blocks_rec_inv a b 0 a.length 0 b.length
    have := collapseFrom_inv (matching_blocks_rec a b 0 a.length 0 b.length) 0 0 0
      h1 (by omega) (by omega)
    simpa using this
  · refine ⟨le_refl _, le_refl _, ?_, ?_, trivial⟩
    · show a.length + 0 ≤ a.length
      omega
    · show b.length + 0 ≤ b.length
      omega

/-! ### The opcode list tiles both index ranges -/

/-- End of the last block of `L` (first component), starting from `i`. -/
def endI : Nat → List FMatch → Nat
  | i, [] => i
  | _, m :: L => endI (m.i + m.size) L

theorem endI_append_single : ∀ (L : List FMatch) (i : Nat) (m : FMatch),
    endI i (L ++ [m]) = m.i + m.size := by
  intro L
  induction L with
  | nil => intro i m; rfl
  | cons m' L ih => intro i m; exact ih _ m

/-- Well-formedness of a single opcode relative to the word lists'
lengths: ranges ordered and in bounds, `equal` ranges of the same length,
`insert` with an empty expected range. -/
def OpOK (la lb : Nat) (op : Opcode) : Prop :=
  op.i1 ≤ op.i2 ∧ op.i2 ≤ la ∧ op.j1 ≤ op.j2 ∧ op.j2 ≤ lb ∧
    (op.tag = Tag.equal → op.i2 - op.i1 = op.j2 - op.j1) ∧
    (op.tag = Tag.insert → op.i1 = op.i2)

theorem opcodesFrom_ok {la lb : Nat} :
    ∀ (L : List FMatch) (i j : Nat), ChainInv i la j lb L → i ≤ la → j ≤ lb →
      ∀ op ∈ opcodesFrom i j L, OpOK la lb op := by
  intro L
  induction L with
  | nil => intro i j _ _ _ op hop; simp [opcodesFrom] at hop
  | cons m L ih =>
    intro i j hC hila hjlb
    obtain ⟨ha, hb, hc, hd, he⟩ := hC
    intro op hop
    rw [opcodesFrom] at hop
    rcases List.mem_append.mp hop with hop | hop
    · rcases List.mem_append.mp hop with hop | hop
      · -- the pre-block (replace/delete/insert) segment
        split at hop
        · next h =>
          rcases List.mem_singleton.mp hop with rfl
          refine ⟨?_, ?_, ?_, ?_, ?_, ?_⟩
          · show i ≤ m.i
            omega
          · show m.i ≤ la
            omega
          · show j ≤ m.j
            omega
          · show m.j ≤ lb
            omega
          · intro htag
            simp at htag
          · intro htag
            simp at htag
        · split at hop
          · next h =>
            rcases List.mem_singleton.mp hop with rfl
            refine ⟨?_, ?_, ?_, ?_, ?_, ?_⟩
            · show i ≤ m.i
              omega
            · show m.i ≤ la
              omega
            · show j ≤ m.j
              omega
            · show m.j ≤ lb
              omega
            · intro htag
              simp at htag
            · intro htag
              simp at htag
          · split at hop
            · next hnotr hnotd h =>
              rcases List.mem_singleton.mp hop with rfl
              refine ⟨?_, ?_, ?_, ?_, ?_, ?_⟩
              · show i ≤ m.i
                omega
              · show m.i ≤ la
                omega
              · show j ≤ m.j
                omega
              · show m.j ≤ lb
                omega
              · intro htag
                simp at htag
              · intro _
                show i = m.i
                omega
            · simp at hop
      · -- the equal segment
        split at hop
        · rcases List.mem_singleton.mp hop with rfl
          refine ⟨?_, ?_, ?_, ?_, ?_, ?_⟩
          · show m.i ≤ m.i + m.size
            omega
          · show m.i + m.size ≤ la
            omega
          · show m.j ≤ m.j + m.size
            omega
          · show m.j + m.size ≤ lb
            omega
          · intro _
            show m.i + m.size - m.i = m.j + m.size - m.j
            omega
          · intro htag
            simp at htag
        · simp at hop
    · exact ih (m.i + m.size) (m.j + m.size) he (by omega) (by omega) op hop

theorem endI_ge {la lb : Nat} :
    ∀ (L : List FMatch) (i j : Nat), ChainInv i la j lb L → i ≤ endI i L := by
  intro L
  induction L with
  | nil => intro i j _; exact le_refl _
  | cons m L ih =>
    intro i j hC
    obtain ⟨ha, -, -, -, he⟩ := hC
    have := ih (m.i + m.size) (m.j + m.size) he
    show i ≤ endI (m.i + m.size) L
    omega

theorem opcodesFrom_positions {la lb : Nat} :
    ∀ (L : List FMatch) (i j : Nat), ChainInv i la j lb L →
      (opcodesFrom i j L).flatMap (fun op => List.range' op.i1 (op.i2 - op.i1)) =
        List.range' i (endI i L - i) := by
  intro L
  induction L with
  | nil => intro i j _; simp [opcodesFrom, endI]
  | cons m L ih =>
    intro i j hC
    obtain ⟨ha, hb, hc, hd, he⟩ := hC
    rw [opcodesFrom]
    rw [List.flatMap_append, List.flatMap_append, ih (m.i + m.size) (m.j + m.size) he]
    have h1 : (if i < m.i ∧ j < m.j then [(⟨Tag.replace, i, m.i, j, m.j⟩ : Opcode)]
        else if i < m.i then [⟨Tag.delete, i, m.i, j, m.j⟩]
        else if j < m.j then [⟨Tag.insert, i, m.i, j, m.j⟩]
        else []).flatMap (fun op => List.range' op.i1 (op.i2 - op.i1)) =
        List.range' i (m.i - i) := by
      split
      · simp
      · split
        · simp
        · split
          · next hnr hnd hj =>
            have h0 : m.i - i = 0 := by omega
            simp [h0]
          · next hnr hnd hnj =>
            have h0 : m.i - i = 0 := by omega
            simp [h0]
    have h2 : (if m.size ≠ 0 then
        [(⟨Tag.equal, m.i, m.i + m.size, m.j, m.j + m.size⟩ : Opcode)]
        else []).flatMap (fun op => List.range' op.i1 (op.i2 - op.i1)) =
        List.range' m.i m.size := by
      split
      · simp
      · next hsz =>
        have h0 : m.size = 0 := by omega
        simp [h0]
    rw [h1, h2]
    have hr1 : List.range' i (m.i - i) ++ List.range' (i + (m.i - i)) m.size =
        List.range' i (m.size + (m.i - i)) := List.range'_append_1 i (m.i - i) m.size
    have hi' : i + (m.i - i) = m.i := by omega
    rw [hi'] at hr1
    rw [hr1]
    have hr2 := List.range'_append_1 i (m.size + (m.i - i))
      (endI (m.i + m.size) L - (m.i + m.size))
    have hi2 : i + (m.size + (m.i - i)) = m.i + m.size := by omega
    rw [hi2] at hr2
    rw [hr2]
    have hend : m.i + m.size ≤ endI (m.i + m.size) L := endI_ge L _ _ he
    show List.range' i (endI (m.i + m.size) L - (m.i + m.size) + (m.size + (m.i - i))) =
      List.range' i (endI (m.i + m.size) L - i)
    congr 1
    omega

end Difflib

/-! ## Embedding of `PronunciationService` -/

open Difflib

/-- Python `\s` (ASCII whitespace as matched by `re` on these inputs). -/
def pyIsSpace (c : Char) : Bool :=
  c = ' ' || c = '\t' || c = '\n' || c = '\r' || c = '\x0b' || c = '\x0c'

/-- Python `\w` (ASCII word characters; the repository only ever feeds the
normalizer ASCII text, so the Unicode extension of `\w` is not modelled). -/
def isWordChar (c : Char) : Bool :=
  c.isAlphanum || c = '_'

/-- `re.sub(r"\s+", " ", text)`: collapse each whitespace run to a single
space, emitted at the start of the run.  `inRun` records whether the
previous character belonged to the current whitespace run. -/
def collapseWsGo : Bool → List Char → List Char
  | _, [] => []
  | inRun, c :: cs =>
    if pyIsSpace c then
      if inRun then collapseWsGo true cs
      else ' ' :: collapseWsGo true cs
    else
      c :: collapseWsGo false cs

def collapseWs (cs : List Char) : List Char :=
  collapseWsGo false cs

/-- `str.strip()`: drop leading and trailing whitespace. -/
def pyStrip (cs : List Char) : List Char :=
  ((cs.dropWhile (fun x => pyIsSpace x)).reverse.dropWhile (fun x => pyIsSpace x)).reverse

/-- `PronunciationService._normalise`: lower-case, remove characters that
are neither word characters nor whitespace, collapse whitespace, strip. -/
def normalise (s : String) : String :=
  String.mk (pyStrip (collapseWs
    ((s.data.map Char.toLower).filter (fun c => isWordChar c || pyIsSpace c))))

/-- `str.split()` with no separator: split on whitespace runs, dropping
empty tokens.  `cur` is the reversed current token. -/
def pySplitGo : List Char → List Char → List (List Char)
  | cur, [] => if cur = [] then [] else [cur.reverse]
  | cur, c :: cs =>
    if pyIsSpace c then
      if cur = [] then pySplitGo [] cs
      else cur.reverse :: pySplitGo [] cs
    else
      pySplitGo (c :: cur) cs

def pySplitList (cs : List Char) : List (List Char) :=
  pySplitGo [] cs

/-- Word tokenization (`.split()`) as applied to the normalized texts. -/
def pySplit (s : String) : List String :=
  (pySplitList s.data).map String.mk

/-- Character-level `SequenceMatcher(None, x, y).ratio()` on two words. -/
def simRatio (x y : String) : ℚ :=
  Difflib.ratio x.data y.data

/-- `PronunciationService._fluency_score`. -/
def fluency_score (spoken_words expected_words : List String) : ℚ :=
  if expected_words = [] then 100
  else
    if 0.8 ≤ ((spoken_words.length : ℚ) / (expected_words.length : ℚ)) ∧
        ((spoken_words.length : ℚ) / (expected_words.length : ℚ)) ≤ 1.2 then 100
    else if 0.5 ≤ ((spoken_words.length : ℚ) / (expected_words.length : ℚ)) ∧
        ((spoken_words.length : ℚ) / (expected_words.length : ℚ)) ≤ 1.5 then 70
    else 40

/-- `PronunciationService._feedback`. -/
def feedback (score : ℚ) : String :=
  if 90 ≤ score then
    "Excellent pronunciation! You sound very natural."
  else if 75 ≤ score then
    "Great job! Just a few words to polish – keep practising!"
  else if 60 ≤ score then
    "Good effort! Try listening to the slow version and repeating."
  else if 40 ≤ score then
    "You're making progress! Focus on the highlighted words and try again."
  else
    "Keep going! Every attempt makes you better. Try saying it slowly first."

/-- Python `round(q, 1)` on the idealized rational value: round to the
nearest tenth, ties to even. -/
def pyRound1 (q : ℚ) : ℚ :=
  let f : ℤ := ⌊q * 10⌋
  let r : ℚ := q * 10 - (f : ℚ)
  let n : ℤ :=
    if r < 1/2 then f
    else if 1/2 < r then f + 1
    else if f % 2 = 0 then f else f + 1
  (n : ℚ) / 10

/-- One iteration of the opcode walk in `PronunciationService._score`,
carrying the `word_errors` list and the `correct_count` accumulator.
Unchecked Python indexing (`expected_words[idx]`,
`spoken_words[j1 + (idx - i1)]`) is `List.get?`; the `replace` branch's
spoken access sits behind the explicit `(j1 + k) < len(spoken_words)`
guard, exactly as in the source. -/
def scoreStep (ew sw : List String) (acc : List WordError × ℚ) (op : Opcode) :
    Option (List WordError × ℚ) :=
  match op.tag with
  | Tag.equal => do
    let entries ← (List.range' op.i1 (op.i2 - op.i1)).mapM (fun idx => do
      let w ← ew.get? idx
      let s ← sw.get? (op.j1 + (idx - op.i1))
      pure (⟨w, w, s, idx, true⟩ : WordError))
    pure (acc.1 ++ entries, acc.2 + ((op.i2 - op.i1 : Nat) : ℚ))
  | Tag.replace =>
    (List.range (op.i2 - op.i1)).foldlM (fun (st : List WordError × ℚ) k => do
      let w ← ew.get? (op.i1 + k)
      let spoken_w := if op.j1 + k < sw.length then sw.getD (op.j1 + k) "" else ""
      let sim := simRatio w spoken_w
      let is_close := decide ((0.6 : ℚ) ≤ sim)
      pure (st.1 ++ [⟨w, w, spoken_w, op.i1 + k, is_close⟩],
        if is_close then st.2 + sim else st.2)) acc
  | Tag.delete => do
    let entries ← (List.range' op.i1 (op.i2 - op.i1)).mapM (fun idx => do
      let w ← ew.get? idx
      pure (⟨w, w, "", idx, false⟩ : WordError))
    pure (acc.1 ++ entries, acc.2)
  | Tag.insert => pure acc

/-- What the `equal`/`replace`/`delete` branches of the opcode walk append
to `word_errors` for one opcode, written with total (default-valued)
indexing; `scoreStep_eq` proves this is exactly what `scoreStep` produces
for well-formed opcodes. -/
def opEntriesT (ew sw : List String) (op : Opcode) : List WordError :=
  match op.tag with
  | Tag.equal =>
    (List.range' op.i1 (op.i2 - op.i1)).map (fun idx =>
      ⟨ew.getD idx "", ew.getD idx "", sw.getD (op.j1 + (idx - op.i1)) "", idx, true⟩)
  | Tag.replace =>
    (List.range (op.i2 - op.i1)).map (fun k =>
      ⟨ew.getD (op.i1 + k) "", ew.getD (op.i1 + k) "",
        (if op.j1 + k < sw.length then sw.getD (op.j1 + k) "" else ""), op.i1 + k,
        decide ((0.6 : ℚ) ≤ simRatio (ew.getD (op.i1 + k) "")
          (if op.j1 + k < sw.length then sw.getD (op.j1 + k) "" else ""))⟩)
  | Tag.delete =>
    (List.range' op.i1 (op.i2 - op.i1)).map (fun idx =>
      ⟨ew.getD idx "", ew.getD idx "", "", idx, false⟩)
  | Tag.insert => []

/-- What one opcode adds to `correct_count`: the span length for `equal`,
the summed partial credit of close pairs for `replace`, nothing
otherwise. -/
def opCreditT (ew sw : List String) (op : Opcode) : ℚ :=
  match op.tag with
  | Tag.equal => ((op.i2 - op.i1 : Nat) : ℚ)
  | Tag.replace =>
    ((List.range (op.i2 - op.i1)).map (fun k =>
      if (0.6 : ℚ) ≤ simRatio (ew.getD (op.i1 + k) "")
          (if op.j1 + k < sw.length then sw.getD (op.j1 + k) "" else "") then
        simRatio (ew.getD (op.i1 + k) "")
          (if op.j1 + k < sw.length then sw.getD (op.j1 + k) "" else "")
      else 0)).sum
  | _ => 0

/-- `PronunciationService._score(spoken, expected)` (note the argument
order of the source).  Returns `none` exactly when some unchecked Python
index would be out of range. -/
def score (spoken expected : String) : Option EvalResult := do
  let spoken_words := pySplit (normalise spoken)
  let expected_words := pySplit (normalise expected)
  let ops := get_opcodes expected_words spoken_words
  let res ← ops.foldlM (scoreStep expected_words spoken_words) ([], 0)
  let accuracy : ℚ := res.2 / ((max expected_words.length 1 : Nat) : ℚ) * 100
  let fluency := fluency_score spoken_words expected_words
  let overall := accuracy * 0.7 + fluency * 0.3
  pure {
    overall_score := pyRound1 (min (max overall 0) 100)
    accuracy_score := pyRound1 (min (max accuracy 0) 100)
    fluency_score := pyRound1 (min (max fluency 0) 100)
    word_errors := res.1
    feedback := feedback overall
    spoken_text := spoken
    expected_text := expected }

/-! ## Characterization of `score` -/

theorem get?_eq_some_getD {l : List String} {n : Nat} (h : n < l.length) :
    l.get? n = some (l.getD n "") := by
  induction l generalizing n with
  | nil => simp at h
  | cons x xs ih =>
    cases n with
    | zero => rfl
    | succ n =>
      simp only [List.length_cons] at h
      simpa [List.get?, List.getD] using ih (by omega)

theorem getD_mem' {l : List String} {n : Nat} (h : n < l.length) :
    l.getD n "" ∈ l := by
  induction l generalizing n with
  | nil => simp at h
  | cons x xs ih =>
    cases n with
    | zero => simp [List.getD]
    | succ n =>
      simp only [List.length_cons] at h
      simpa [List.getD] using Or.inr (by simpa [List.getD] using ih (n := n) (by omega))

theorem mapM_eq_some {β γ : Type} {f : β → Option γ} {g : β → γ} :
    ∀ (xs : List β), (∀ x ∈ xs, f x = some (g x)) → xs.mapM f = some (xs.map g) := by
  intro xs
  induction xs with
  | nil => intro _; rfl
  | cons x xs ih =>
    intro h
    rw [List.mapM_cons, h x (by simp), ih (fun y hy => h y (by simp [hy]))]
    rfl

theorem foldlM_entries {f : (List WordError × ℚ) → Nat → Option (List WordError × ℚ)}
    {g : Nat → WordError} {c : Nat → ℚ} :
    ∀ (ks : List Nat) (st : List WordError × ℚ),
      (∀ (st' : List WordError × ℚ) k, k ∈ ks →
        f st' k = some (st'.1 ++ [g k], st'.2 + c k)) →
      ks.foldlM f st = some (st.1 ++ ks.map g, st.2 + (ks.map c).sum) := by
  intro ks
  induction ks with
  | nil => intro st _; simp
  | cons k ks ih =>
    intro st h
    rw [List.foldlM_cons, h st k (by simp)]
    show ks.foldlM f (st.1 ++ [g k], st.2 + c k) = _
    rw [ih (st.1 ++ [g k], st.2 + c k) (fun st' k' hk' => h st' k' (by simp [hk']))]
    simp [add_assoc]

theorem replace_step_eq {ew sw : List String} {i1 j1 : Nat} (k : Nat)
    (st : List WordError × ℚ) (hi : i1 + k < ew.length) :
    (do
      let w ← ew.get? (i1 + k)
      let spoken_w := if j1 + k < sw.length then sw.getD (j1 + k) "" else ""
      let sim := simRatio w spoken_w
      let is_close := decide ((0.6 : ℚ) ≤ sim)
      pure (st.1 ++ [(⟨w, w, spoken_w, i1 + k, is_close⟩ : WordError)],
        if is_close then st.2 + sim else st.2) : Option (List WordError × ℚ)) =
    some (st.1 ++
      [(⟨ew.getD (i1 + k) "", ew.getD (i1 + k) "",
        (if j1 + k < sw.length then sw.getD (j1 + k) "" else ""), i1 + k,
        decide ((0.6 : ℚ) ≤ simRatio (ew.getD (i1 + k) "")
          (if j1 + k < sw.length then sw.getD (j1 + k) "" else ""))⟩ : WordError)],
      st.2 +
        if (0.6 : ℚ) ≤ simRatio (ew.getD (i1 + k) "")
            (if j1 + k < sw.length then sw.getD (j1 + k) "" else "") then
          simRatio (ew.getD (i1 + k) "")
            (if j1 + k < sw.length then sw.getD (j1 + k) "" else "")
        else 0) := by
  rw [get?_eq_some_getD hi]
  refine congrArg some (Prod.ext rfl ?_)
  show (if decide ((0.6 : ℚ) ≤ simRatio (ew.getD (i1 + k) "")
        (if j1 + k < sw.length then sw.getD (j1 + k) "" else "")) = true then
      st.2 + simRatio (ew.getD (i1 + k) "")
        (if j1 + k < sw.length then sw.getD (j1 + k) "" else "")
    else st.2) = _
  by_cases hcl : (0.6 : ℚ) ≤ simRatio (ew.getD (i1 + k) "")
      (if j1 + k < sw.length then sw.getD (j1 + k) "" else "")
  · rw [if_pos (decide_eq_true hcl), if_pos hcl]
  · rw [if_neg (fun h => hcl (of_decide_eq_true h)), if_neg hcl, add_zero]

theorem scoreStep_eq {ew sw : List String} {op : Opcode}
    (hop : OpOK ew.length sw.length op) (acc : List WordError × ℚ) :
    scoreStep ew sw acc op = some (acc.1 ++ opEntriesT ew sw op, acc.2 + opCreditT ew sw op) := by
  obtain ⟨h1, h2, h3, h4, heq, hins⟩ := hop
  obtain ⟨tag, i1, i2, j1, j2⟩ := op
  have e1 : i1 ≤ i2 := h1
  have e2 : i2 ≤ ew.length := h2
  have e3 : j1 ≤ j2 := h3
  have e4 : j2 ≤ sw.length := h4
  clear h1 h2 h3 h4
  cases tag with
  | equal =>
    have hlen : i2 - i1 = j2 - j1 := heq rfl
    rw [scoreStep]
    dsimp only
    rw [mapM_eq_some (g := fun idx =>
        (⟨ew.getD idx "", ew.getD idx "", sw.getD (j1 + (idx - i1)) "", idx, true⟩ : WordError))]
    · rfl
    · intro idx hidx
      rw [List.mem_range'_1] at hidx
      have hidx2 : i1 ≤ idx ∧ idx < i1 + (i2 - i1) := hidx
      have hi : idx < ew.length := by omega
      have hj : j1 + (idx - i1) < sw.length := by omega
      rw [get?_eq_some_getD hi]
      show (sw.get? (j1 + (idx - i1))).bind _ = _
      rw [get?_eq_some_getD hj]
      rfl
  | replace =>
    rw [scoreStep]
    dsimp only
    have := foldlM_entries (f := fun (st : List WordError × ℚ) k => do
        let w ← ew.get? (i1 + k)
        let spoken_w := if j1 + k < sw.length then sw.getD (j1 + k) "" else ""
        let sim := simRatio w spoken_w
        let is_close := decide ((0.6 : ℚ) ≤ sim)
        pure (st.1 ++ [⟨w, w, spoken_w, i1 + k, is_close⟩],
          if is_close then st.2 + sim else st.2))
      (g := fun k =>
        (⟨ew.getD (i1 + k) "", ew.getD (i1 + k) "",
          (if j1 + k < sw.length then sw.getD (j1 + k) "" else ""), i1 + k,
          decide ((0.6 : ℚ) ≤ simRatio (ew.getD (i1 + k) "")
            (if j1 + k < sw.length then sw.getD (j1 + k) "" else ""))⟩ : WordError))
      (c := fun k =>
        if (0.6 : ℚ) ≤ simRatio (ew.getD (i1 + k) "")
            (if j1 + k < sw.length then sw.getD (j1 + k) "" else "") then
          simRatio (ew.getD (i1 + k) "")
            (if j1 + k < sw.length then sw.getD (j1 + k) "" else "")
        else 0)
      (List.range (i2 - i1)) acc ?_
    · exact this
    · intro st k hk
      rw [List.mem_range] at hk
      have hk2 : k < i2 - i1 := hk
      have hi : i1 + k < ew.length := by omega
      exact replace_step_eq k st hi
  | delete =>
    rw [scoreStep]
    dsimp only
    rw [mapM_eq_some (g := fun idx =>
        (⟨ew.getD idx "", ew.getD idx "", "", idx, false⟩ : WordError))]
    · dsimp only [opEntriesT, opCreditT]
      rw [add_zero]
      rfl
    · intro idx hidx
      rw [List.mem_range'_1] at hidx
      have hidx2 : i1 ≤ idx ∧ idx < i1 + (i2 - i1) := hidx
      have hi : idx < ew.length := by omega
      rw [get?_eq_some_getD hi]
      rfl
  | insert =>
    rw [scoreStep]
    dsimp only [opEntriesT, opCreditT]
    rw [List.append_nil, add_zero]
    rfl

theorem get_opcodes_ok {α : Type} [DecidableEq α] (a b : List α) :
    ∀ op ∈ get_opcodes a b, OpOK a.length b.length op :=
  opcodesFrom_ok (get_matching_blocks a b) 0 0 (get_matching_blocks_inv a b)
    (Nat.zero_le _) (Nat.zero_le _)

theorem get_opcodes_positions {α : Type} [DecidableEq α] (a b : List α) :
    (get_opcodes a b).flatMap (fun op => List.range' op.i1 (op.i2 - op.i1)) =
      List.range a.length := by
  rw [get_opcodes,
    opcodesFrom_positions _ 0 0 (get_matching_blocks_inv a b)]
  rw [get_matching_blocks, endI_append_single]
  show List.range' 0 (a.length + 0 - 0) = List.range a.length
  rw [Nat.add_zero, Nat.sub_zero, List.range_eq_range']

theorem foldlM_scoreStep (ew sw : List String) :
    ∀ (ops : List Opcode) (acc : List WordError × ℚ),
      (∀ op ∈ ops, OpOK ew.length sw.length op) →
      ops.foldlM (scoreStep ew sw) acc =
        some (acc.1 ++ ops.flatMap (opEntriesT ew sw),
          acc.2 + (ops.map (opCreditT ew sw)).sum) := by
  intro ops
  induction ops with
  | nil => intro acc _; simp
  | cons op ops ih =>
    intro acc h
    rw [List.foldlM_cons, scoreStep_eq (h op (by simp)) acc]
    show ops.foldlM (scoreStep ew sw) _ = _
    rw [ih _ (fun op' hop' => h op' (by simp [hop']))]
    simp [add_assoc]

/-! Derived (characterization) quantities of one evaluation; these are not
part of the source, they name the intermediate values of `_score` that the
theorems below refer to. -/

def scEw (expected : String) : List String := pySplit (normalise expected)

def scSw (spoken : String) : List String := pySplit (normalise spoken)

def scOps (spoken expected : String) : List Opcode :=
  get_opcodes (scEw expected) (scSw spoken)

def scErrors (spoken expected : String) : List WordError :=
  (scOps spoken expected).flatMap (opEntriesT (scEw expected) (scSw spoken))

def scCredit (spoken expected : String) : ℚ :=
  ((scOps spoken expected).map (opCreditT (scEw expected) (scSw spoken))).sum

def scAccuracy (spoken expected : String) : ℚ :=
  scCredit spoken expected / ((max (scEw expected).length 1 : Nat) : ℚ) * 100

def scOverall (spoken expected : String) : ℚ :=
  scAccuracy spoken expected * 0.7 +
    fluency_score (scSw spoken) (scEw expected) * 0.3

theorem scEw_def (expected : String) : scEw expected = pySplit (normalise expected) := rfl

theorem scSw_def (spoken : String) : scSw spoken = pySplit (normalise spoken) := rfl

theorem scOps_def (spoken expected : String) :
    scOps spoken expected = get_opcodes (scEw expected) (scSw spoken) := rfl

theorem scAccuracy_def (spoken expected : String) :
    scAccuracy spoken expected =
      scCredit spoken expected / ((max (scEw expected).length 1 : Nat) : ℚ) * 100 := rfl

theorem scOverall_def (spoken expected : String) :
    scOverall spoken expected =
      scAccuracy spoken expected * 0.7 +
        fluency_score (scSw spoken) (scEw expected) * 0.3 := rfl

set_option maxHeartbeats 1000000 in
/-- `_score` never hits an out-of-range index: it always produces the
result assembled from the per-opcode entries and credits. -/
theorem score_eq_some (spoken expected : String) :
    score spoken expected = some
      { overall_score := pyRound1 (min (max (scOverall spoken expected) 0) 100)
        accuracy_score := pyRound1 (min (max (scAccuracy spoken expected) 0) 100)
        fluency_score :=
          pyRound1 (min (max (fluency_score (scSw spoken) (scEw expected)) 0) 100)
        word_errors := scErrors spoken expected
        feedback := feedback (scOverall spoken expected)
        spoken_text := spoken
        expected_text := expected } := by
  have h := foldlM_scoreStep (pySplit (normalise expected)) (pySplit (normalise spoken))
    (get_opcodes (pySplit (normalise expected)) (pySplit (normalise spoken))) ([], 0)
    (get_opcodes_ok _ _)
  dsimp only at h
  rw [List.nil_append, zero_add] at h
  rw [score]
  show (get_opcodes (pySplit (normalise expected))
      (pySplit (normalise spoken))).foldlM
      (scoreStep (pySplit (normalise expected)) (pySplit (normalise spoken)))
      ([], 0) >>= _ = _
  rw [h]
  show some _ = some _
  refine congrArg some ?_
  show EvalResult.mk _ _ _ _ _ _ _ = EvalResult.mk _ _ _ _ _ _ _
  dsimp only
  simp only [scOverall, scAccuracy, scCredit, scErrors, scOps, scEw, scSw]

/-! ## Structural facts feeding the claims -/

theorem opEntriesT_positions {ew sw : List String} {la lb : Nat} {op : Opcode}
    (hop : OpOK la lb op) :
    (opEntriesT ew sw op).map WordError.position = List.range' op.i1 (op.i2 - op.i1) := by
  obtain ⟨h1, h2, h3, h4, heq, hins⟩ := hop
  obtain ⟨tag, i1, i2, j1, j2⟩ := op
  cases tag with
  | equal =>
    dsimp only [opEntriesT]
    rw [List.map_map]
    show (List.range' i1 (i2 - i1)).map (fun idx : Nat => idx) = List.range' i1 (i2 - i1)
    exact List.map_id' _
  | replace =>
    dsimp only [opEntriesT]
    rw [List.map_map]
    show (List.range (i2 - i1)).map (fun k => i1 + k) = _
    rw [List.range'_eq_map_range]
  | delete =>
    dsimp only [opEntriesT]
    rw [List.map_map]
    show (List.range' i1 (i2 - i1)).map (fun idx : Nat => idx) = List.range' i1 (i2 - i1)
    exact List.map_id' _
  | insert =>
    have h0 : i1 = i2 := hins rfl
    dsimp only [opEntriesT]
    rw [show i2 - i1 = 0 by omega]
    rfl

theorem flatMap_congr_mem {β γ : Type} {f g : β → List γ} :
    ∀ (l : List β), (∀ x ∈ l, f x = g x) → l.flatMap f = l.flatMap g := by
  intro l
  induction l with
  | nil => intro _; rfl
  | cons x xs ih =>
    intro h
    rw [List.flatMap_cons, List.flatMap_cons, h x (by simp),
      ih (fun y hy => h y (by simp [hy]))]

theorem scErrors_positions (spoken expected : String) :
    (scErrors spoken expected).map WordError.position =
      List.range (scEw expected).length := by
  rw [scErrors, List.map_flatMap]
  rw [flatMap_congr_mem (g := fun op => List.range' op.i1 (op.i2 - op.i1))
    (scOps spoken expected)
    (fun op hop => opEntriesT_positions (get_opcodes_ok (scEw expected) (scSw spoken) op hop))]
  exact get_opcodes_positions (scEw expected) (scSw spoken)

theorem pySplitGo_ne_nil :
    ∀ (cs cur : List Char), ∀ w ∈ pySplitGo cur cs, w ≠ [] := by
  intro cs
  induction cs with
  | nil =>
    intro cur w hw
    rw [pySplitGo] at hw
    split at hw
    · simp at hw
    · next hcur =>
      rcases List.mem_singleton.mp hw with rfl
      simpa using hcur
  | cons c cs ih =>
    intro cur w hw
    rw [pySplitGo] at hw
    split at hw
    · split at hw
      · exact ih [] w hw
      · next hcur =>
        rcases List.mem_cons.mp hw with rfl | hw
        · simpa using hcur
        · exact ih [] w hw
    · exact ih (c :: cur) w hw

theorem pySplit_ne_empty {s : String} : ∀ w ∈ pySplit s, w ≠ "" := by
  intro w hw
  rw [pySplit] at hw
  rcases List.mem_map.mp hw with ⟨l, hl, rfl⟩
  intro h0
  exact pySplitGo_ne_nil s.data [] l hl (by simpa using congrArg String.data h0)

theorem b2j_nil {α : Type} [DecidableEq α] (x : α) : b2j ([] : List α) x = [] := by
  rw [b2j, indicesOf]
  split <;> simp

theorem flmRows_nil_bj {α : Type} [DecidableEq α] {a : List α} {bj : α → List Nat}
    {blo bhi : Nat} (hbj : ∀ x, bj x = []) :
    ∀ (rows : List Nat) (j2len : Nat → Nat) (best : FMatch),
      flmRows a bj blo bhi rows j2len best = best := by
  intro rows
  induction rows with
  | nil => intro j2len best; rfl
  | cons i rows ih =>
    intro j2len best
    rw [flmRows]
    cases h : a.get? i with
    | none => simpa [h, flmInner] using ih _ _
    | some x => simpa [h, hbj x, flmInner] using ih _ _

theorem find_longest_match_nil {α : Type} [DecidableEq α] (a : List α) (la : Nat) :
    find_longest_match a ([] : List α) 0 la 0 0 = ⟨0, 0, 0⟩ := by
  rw [find_longest_match]
  rw [flmRows_nil_bj (fun x => b2j_nil x)]
  show extRight a [] la 0 (extLeftGo a [] 0 0 0 ⟨0, 0, 0⟩) = _
  rw [extLeftGo, extRight]
  show extRightGo a [] la 0 (la - 0) ⟨0, 0, 0⟩ = _
  cases h : la - 0 with
  | zero => rfl
  | succ n =>
    rw [extRightGo, if_neg]
    intro hcon
    have : (0 : Nat) < 0 := hcon.2.1
    omega

theorem ratio_nil_right {a : List Char} (ha : a ≠ []) : ratio a ([] : List Char) = 0 := by
  have hm : matching_blocks_rec a ([] : List Char) 0 a.length 0 0 = [] := by
    rw [matching_blocks_rec]
    show mbRecGo a [] (a.length - 0 + (0 - 0) + 1) 0 a.length 0 0 = []
    rw [mbRecGo]
    rw [find_longest_match_nil a a.length]
    rw [if_pos rfl]
  rw [ratio, get_matching_blocks]
  simp only [List.length_nil]
  rw [hm]
  have hlen : a.length ≠ 0 := by
    intro h0
    exact ha (List.length_eq_zero.mp h0)
  rw [if_pos (by simpa using hlen)]
  rw [collapseFrom]
  simp

theorem pyRound1_def (q : ℚ) :
    pyRound1 q = (((if q * 10 - (⌊q * 10⌋ : ℚ) < 1/2 then ⌊q * 10⌋
      else if 1/2 < q * 10 - (⌊q * 10⌋ : ℚ) then ⌊q * 10⌋ + 1
      else if ⌊q * 10⌋ % 2 = 0 then ⌊q * 10⌋ else ⌊q * 10⌋ + 1) : ℤ) : ℚ) / 10 := rfl

/-- Rounding to one decimal never drops a value below an integer
threshold it had reached. -/
theorem pyRound1_ge {T : ℤ} {q : ℚ} (h : (T : ℚ) ≤ q) : (T : ℚ) ≤ pyRound1 q := by
  rw [pyRound1_def]
  have hf : 10 * T ≤ ⌊q * 10⌋ := by
    rw [Int.le_floor]
    push_cast
    linarith
  have hn : 10 * T ≤ (if q * 10 - (⌊q * 10⌋ : ℚ) < 1/2 then ⌊q * 10⌋
      else if 1/2 < q * 10 - (⌊q * 10⌋ : ℚ) then ⌊q * 10⌋ + 1
      else if ⌊q * 10⌋ % 2 = 0 then ⌊q * 10⌋ else ⌊q * 10⌋ + 1) := by
    split
    · exact hf
    · split
      · omega
      · split
        · exact hf
        · omega
  rw [le_div_iff (by norm_num : (0 : ℚ) < 10)]
  calc (T : ℚ) * 10 = ((10 * T : ℤ) : ℚ) := by push_cast; ring
    _ ≤ _ := by exact_mod_cast hn

/-- A value more than `1/20` below an integer threshold stays below it
after rounding to one decimal. -/
theorem pyRound1_lt {T : ℤ} {q : ℚ} (h : q < (T : ℚ) - 1/20) : pyRound1 q < T := by
  rw [pyRound1_def]
  have hfl : (⌊q * 10⌋ : ℚ) ≤ q * 10 := Int.floor_le _
  have hf3 : ⌊q * 10⌋ < 10 * T := by
    have h2 : (⌊q * 10⌋ : ℚ) < ((10 * T : ℤ) : ℚ) := by push_cast; linarith
    exact_mod_cast h2
  rw [div_lt_iff (by norm_num : (0 : ℚ) < 10)]
  have hgoal : ∀ n : ℤ, n < 10 * T → ((n : ℚ) < (T : ℚ) * 10) := by
    intro n hn
    calc (n : ℚ) < ((10 * T : ℤ) : ℚ) := by exact_mod_cast hn
      _ = (T : ℚ) * 10 := by push_cast; ring
  by_cases hcase : ⌊q * 10⌋ = 10 * T - 1
  · have hr : q * 10 - (⌊q * 10⌋ : ℚ) < 1/2 := by
      rw [hcase]
      push_cast
      linarith
    rw [if_pos hr]
    exact hgoal _ (by omega)
  · have hf2 : ⌊q * 10⌋ ≤ 10 * T - 2 := by omega
    refine hgoal _ ?_
    split
    · omega
    · split
      · omega
      · split
        · omega
        · omega

/-- On values clear of the `1/20`-wide bands just below the four tier
thresholds, the feedback lookup commutes with rounding to one decimal. -/
theorem feedback_pyRound1_agree {q : ℚ}
    (h40 : ¬((40 : ℚ) - 1/20 ≤ q ∧ q < 40))
    (h60 : ¬((60 : ℚ) - 1/20 ≤ q ∧ q < 60))
    (h75 : ¬((75 : ℚ) - 1/20 ≤ q ∧ q < 75))
    (h90 : ¬((90 : ℚ) - 1/20 ≤ q ∧ q < 90)) :
    feedback q = feedback (pyRound1 q) := by
  have key : ∀ T : ℤ, ¬(((T : ℚ) - 1/20 ≤ q) ∧ q < (T : ℚ)) →
      ((T : ℚ) ≤ q ↔ (T : ℚ) ≤ pyRound1 q) := by
    intro T hT
    constructor
    · exact pyRound1_ge
    · intro hR
      by_contra hq
      push_neg at hq
      have hlt : q < (T : ℚ) - 1/20 := by
        by_contra hq2
        push_neg at hq2
        exact hT ⟨hq2, hq⟩
      exact absurd hR (not_le.mpr (pyRound1_lt hlt))
  have k90 := key 90 (by push_cast; exact h90)
  have k75 := key 75 (by push_cast; exact h75)
  have k60 := key 60 (by push_cast; exact h60)
  have k40 := key 40 (by push_cast; exact h40)
  rw [show ((90 : ℤ) : ℚ) = (90 : ℚ) by norm_num] at k90
  rw [show ((75 : ℤ) : ℚ) = (75 : ℚ) by norm_num] at k75
  rw [show ((60 : ℤ) : ℚ) = (60 : ℚ) by norm_num] at k60
  rw [show ((40 : ℤ) : ℚ) = (40 : ℚ) by norm_num] at k40
  by_cases g90 : (90 : ℚ) ≤ q
  · rw [feedback, feedback, if_pos g90, if_pos (k90.mp g90)]
  · have g90' : ¬(90 : ℚ) ≤ pyRound1 q := fun hx => g90 (k90.mpr hx)
    by_cases g75 : (75 : ℚ) ≤ q
    · rw [feedback, feedback, if_neg g90, if_neg g90', if_pos g75, if_pos (k75.mp g75)]
    · have g75' : ¬(75 : ℚ) ≤ pyRound1 q := fun hx => g75 (k75.mpr hx)
      by_cases g60 : (60 : ℚ) ≤ q
      · rw [feedback, feedback, if_neg g90, if_neg g90', if_neg g75, if_neg g75',
          if_pos g60, if_pos (k60.mp g60)]
      · have g60' : ¬(60 : ℚ) ≤ pyRound1 q := fun hx => g60 (k60.mpr hx)
        by_cases g40 : (40 : ℚ) ≤ q
        · rw [feedback, feedback, if_neg g90, if_neg g90', if_neg g75, if_neg g75',
            if_neg g60, if_neg g60', if_pos g40, if_pos (k40.mp g40)]
        · have g40' : ¬(40 : ℚ) ≤ pyRound1 q := fun hx => g40 (k40.mpr hx)
          rw [feedback, feedback, if_neg g90, if_neg g90', if_neg g75, if_neg g75',
            if_neg g60, if_neg g60', if_neg g40, if_neg g40']

unseal Rat.mul Rat.inv Rat.add Rat.sub Rat.ofScientific in
theorem pyRound1_zero : pyRound1 0 = 0 := by decide

unseal Rat.mul Rat.inv Rat.add Rat.sub Rat.ofScientific in
theorem pyRound1_hundred : pyRound1 100 = 100 := by decide

/-- The feedback lookup commutes with clamping-then-rounding of the
overall score, provided the score is clear of the `1/20`-wide bands just
below the four tier thresholds. -/
theorem feedback_round_clamp {q : ℚ}
    (h40 : ¬((40 : ℚ) - 1/20 ≤ q ∧ q < 40))
    (h60 : ¬((60 : ℚ) - 1/20 ≤ q ∧ q < 60))
    (h75 : ¬((75 : ℚ) - 1/20 ≤ q ∧ q < 75))
    (h90 : ¬((90 : ℚ) - 1/20 ≤ q ∧ q < 90)) :
    feedback q = feedback (pyRound1 (min (max q 0) 100)) := by
  rcases le_or_lt 0 q with hq0 | hq0
  · rcases le_or_lt q 100 with hq1 | hq1
    · rw [max_eq_left hq0, min_eq_left hq1]
      exact feedback_pyRound1_agree h40 h60 h75 h90
    · rw [max_eq_left hq0, min_eq_right hq1.le, pyRound1_hundred]
      have hg : (90 : ℚ) ≤ q := by linarith
      rw [feedback, feedback, if_pos hg, if_pos (by norm_num : (90 : ℚ) ≤ 100)]
  · rw [max_eq_right hq0.le, min_eq_left (by norm_num : (0 : ℚ) ≤ 100), pyRound1_zero]
    rw [feedback, feedback,
      if_neg (by linarith : ¬(90 : ℚ) ≤ q), if_neg (by linarith : ¬(75 : ℚ) ≤ q),
      if_neg (by linarith : ¬(60 : ℚ) ≤ q), if_neg (by linarith : ¬(40 : ℚ) ≤ q),
      if_neg (by norm_num : ¬(90 : ℚ) ≤ 0), if_neg (by norm_num : ¬(75 : ℚ) ≤ 0),
      if_neg (by norm_num : ¬(60 : ℚ) ≤ 0), if_neg (by norm_num : ¬(40 : ℚ) ≤ 0)]

theorem simRatio_empty {w : String} (hw : w ≠ "") : simRatio w "" = 0 := by
  rw [simRatio]
  show ratio w.data ([] : List Char) = 0
  refine ratio_nil_right ?_
  intro h0
  apply hw
  have hd : w = String.mk w.data := rfl
  rw [hd, h0]

set_option maxHeartbeats 2000000 in
/-- Core of claim C10: every entry of the error list whose spoken
counterpart is empty is classified incorrect. -/
theorem scErrors_empty_spoken (spoken expected : String) :
    ∀ we ∈ scErrors spoken expected, we.spoken = "" → we.is_correct = false := by
  intro we hwe hsp
  rw [scErrors] at hwe
  rcases List.mem_flatMap.mp hwe with ⟨op, hop, hmem⟩
  obtain ⟨h1, h2, h3, h4, heq, hins⟩ := get_opcodes_ok (scEw expected) (scSw spoken) op hop
  obtain ⟨tag, i1, i2, j1, j2⟩ := op
  have e1 : i1 ≤ i2 := h1
  have e2 : i2 ≤ (scEw expected).length := h2
  have e3 : j1 ≤ j2 := h3
  have e4 : j2 ≤ (scSw spoken).length := h4
  cases tag with
  | equal =>
    have hlen : i2 - i1 = j2 - j1 := heq rfl
    rcases List.mem_map.mp hmem with ⟨idx, hidx, rfl⟩
    rw [List.mem_range'_1] at hidx
    have hidx2 : i1 ≤ idx ∧ idx < i1 + (i2 - i1) := hidx
    have hj : j1 + (idx - i1) < (scSw spoken).length := by omega
    have hmem2 : (scSw spoken).getD (j1 + (idx - i1)) "" ∈ scSw spoken := getD_mem' hj
    have hne : (scSw spoken).getD (j1 + (idx - i1)) "" ≠ "" :=
      pySplit_ne_empty _ hmem2
    exact absurd hsp hne
  | replace =>
    rcases List.mem_map.mp hmem with ⟨k, hk, rfl⟩
    rw [List.mem_range] at hk
    have hk2 : k < i2 - i1 := hk
    by_cases hg : j1 + k < (scSw spoken).length
    · have hmem2 : (scSw spoken).getD (j1 + k) "" ∈ scSw spoken := getD_mem' hg
      have hne : (scSw spoken).getD (j1 + k) "" ≠ "" := pySplit_ne_empty _ hmem2
      have hsp2 : (if j1 + k < (scSw spoken).length then (scSw spoken).getD (j1 + k) ""
        else "") = "" := hsp
      rw [if_pos hg] at hsp2
      exact absurd hsp2 hne
    · have hi : i1 + k < (scEw expected).length := by omega
      have hwne : (scEw expected).getD (i1 + k) "" ≠ "" :=
        pySplit_ne_empty _ (getD_mem' hi)
      show decide ((0.6 : ℚ) ≤ simRatio ((scEw expected).getD (i1 + k) "")
        (if j1 + k < (scSw spoken).length then (scSw spoken).getD (j1 + k) "" else "")) = false
      rw [if_neg hg, simRatio_empty hwne]
      exact decide_eq_false (by norm_num)
  | delete =>
    rcases List.mem_map.mp hmem with ⟨idx, hidx, rfl⟩
    rfl
  | insert =>
    simp [opEntriesT] at hmem

attribute [irreducible] scEw scSw scOps scErrors scCredit scAccuracy scOverall

/-! ## The claims -/

set_option maxHeartbeats 4000000 in
unseal Rat.mul Rat.inv Rat.add Rat.sub Rat.ofScientific in
/-- C1, counterexample: on `expected=""`, `spoken="anything"` the result
has no word errors, `fluency=100`, `accuracy=0` — but `overall_score` is
`30.0`, not the `0.0` the claim states (the code computes
`0.7 * 0 + 0.3 * 100 = 30`). -/
theorem C1_counterexample :
    (score "anything" "").map (fun r =>
      (r.word_errors, r.fluency_score, r.accuracy_score, r.overall_score,
        decide (r.overall_score = 0))) = some ([], 100, 0, 30, false) := by
  decide

set_option maxHeartbeats 4000000 in
unseal Rat.mul Rat.inv Rat.add Rat.sub Rat.ofScientific in
/-- C1, amended: for `expected=""`, `spoken="anything"` the result has no
WordError entries, `fluency_score=100.0`, `accuracy_score=0.0`, and
`overall_score=30.0`. -/
theorem C1_amended :
    score "anything" "" = some ⟨30, 0, 100, [],
      "Keep going! Every attempt makes you better. Try saying it slowly first.",
      "anything", ""⟩ := by
  decide

set_option maxHeartbeats 4000000 in
unseal Rat.mul Rat.inv Rat.add Rat.sub Rat.ofScientific in
/-- C2, counterexample: for `expected="aa ccc cc"`, `spoken="x cc"` the
alignment has the replace op `(0,2,0,1)` whose spoken range `[0,1)` is
shorter than its expected range `[0,2)`; the trailing expected word `ccc`
(position 1) is paired with `"cc"` — a spoken word at index 1, outside the
op's spoken range — not with the empty string, and is classified correct
with partial credit `0.8`. -/
theorem C2_counterexample :
    get_opcodes (pySplit (normalise "aa ccc cc")) (pySplit (normalise "x cc")) =
      [⟨Tag.replace, 0, 2, 0, 1⟩, ⟨Tag.equal, 2, 3, 1, 2⟩] ∧
    score "x cc" "aa ccc cc" = some ⟨63, 60, 70,
      [⟨"aa", "aa", "x", 0, false⟩, ⟨"ccc", "ccc", "cc", 1, true⟩,
        ⟨"cc", "cc", "cc", 2, true⟩],
      "Good effort! Try listening to the slow version and repeating.",
      "x cc", "aa ccc cc"⟩ := by
  constructor
  · decide
  · decide

set_option maxHeartbeats 2000000 in
/-- C2, amended: within a replace op, expected and spoken words pair
positionally by offset from the start of the op, but a trailing expected
word pairs with the empty string only when the offset runs past the end of
the whole spoken word list — otherwise it takes the spoken word at
`j1 + k`, which may lie outside the op's spoken range.  Each pair is
classified `is_correct` iff its similarity ratio is `≥ 0.6`, and the
accuracy score is assembled from the per-op credits `opCreditT`, under
which a correct pair contributes exactly its similarity ratio and an
incorrect pair contributes `0`. -/
theorem C2_amended (spoken expected : String) (r : EvalResult)
    (h : score spoken expected = some r) :
    (∀ op ∈ scOps spoken expected, op.tag = Tag.replace →
      ∀ k, k < op.i2 - op.i1 →
        (⟨(scEw expected).getD (op.i1 + k) "", (scEw expected).getD (op.i1 + k) "",
          (if op.j1 + k < (scSw spoken).length then (scSw spoken).getD (op.j1 + k) ""
            else ""),
          op.i1 + k,
          decide ((0.6 : ℚ) ≤ simRatio ((scEw expected).getD (op.i1 + k) "")
            (if op.j1 + k < (scSw spoken).length then (scSw spoken).getD (op.j1 + k) ""
              else ""))⟩ : WordError) ∈ r.word_errors) ∧
    r.accuracy_score = pyRound1 (min (max (scAccuracy spoken expected) 0) 100) := by
  rw [score_eq_some] at h
  obtain rfl := Option.some.inj h
  refine ⟨?_, rfl⟩
  intro op hop htag k hk
  show _ ∈ scErrors spoken expected
  rw [scErrors]
  refine List.mem_flatMap.mpr ⟨op, hop, ?_⟩
  obtain ⟨tag, i1, i2, j1, j2⟩ := op
  cases htag
  refine List.mem_map.mpr ⟨k, List.mem_range.mpr hk, rfl⟩

set_option maxHeartbeats 4000000 in
unseal Rat.mul Rat.inv Rat.add Rat.sub Rat.ofScientific in
/-- Witness for C2-amended at `spoken="x cc"`, `expected="aa ccc cc"`. -/
theorem C2_witness :
    (∀ op ∈ scOps "x cc" "aa ccc cc", op.tag = Tag.replace →
      ∀ k, k < op.i2 - op.i1 →
        (⟨(scEw "aa ccc cc").getD (op.i1 + k) "",
          (scEw "aa ccc cc").getD (op.i1 + k) "",
          (if op.j1 + k < (scSw "x cc").length then (scSw "x cc").getD (op.j1 + k) ""
            else ""),
          op.i1 + k,
          decide ((0.6 : ℚ) ≤ simRatio ((scEw "aa ccc cc").getD (op.i1 + k) "")
            (if op.j1 + k < (scSw "x cc").length then (scSw "x cc").getD (op.j1 + k) ""
              else ""))⟩ : WordError) ∈
          (⟨63, 60, 70,
            [⟨"aa", "aa", "x", 0, false⟩, ⟨"ccc", "ccc", "cc", 1, true⟩,
              ⟨"cc", "cc", "cc", 2, true⟩],
            "Good effort! Try listening to the slow version and repeating.",
            "x cc", "aa ccc cc"⟩ : EvalResult).word_errors) ∧
    (⟨63, 60, 70,
      [⟨"aa", "aa", "x", 0, false⟩, ⟨"ccc", "ccc", "cc", 1, true⟩,
        ⟨"cc", "cc", "cc", 2, true⟩],
      "Good effort! Try listening to the slow version and repeating.",
      "x cc", "aa ccc cc"⟩ : EvalResult).accuracy_score =
      pyRound1 (min (max (scAccuracy "x cc" "aa ccc cc") 0) 100) :=
  C2_amended "x cc" "aa ccc cc" _ (by decide)

set_option maxHeartbeats 2000000 in
/-- C3: for every pair of input strings, the word-error list has exactly
one entry per normalized expected word and its positions are exactly
`0..N-1` in order, regardless of how many insert-op words the spoken side
has. -/
theorem C3_coverage (spoken expected : String) (r : EvalResult)
    (h : score spoken expected = some r) :
    r.word_errors.map WordError.position =
      List.range (pySplit (normalise expected)).length ∧
    r.word_errors.length = (pySplit (normalise expected)).length := by
  rw [score_eq_some] at h
  obtain rfl := Option.some.inj h
  rw [← scEw_def]
  constructor
  · exact scErrors_positions spoken expected
  · have h2 := congrArg List.length (scErrors_positions spoken expected)
    simpa using h2

set_option maxHeartbeats 4000000 in
unseal Rat.mul Rat.inv Rat.add Rat.sub Rat.ofScientific in
/-- Witness for C3 at `spoken="oh hello there"`, `expected="hello"`. -/
theorem C3_witness :
    (⟨82, 100, 40, [⟨"hello", "hello", "hello", 0, true⟩],
      "Great job! Just a few words to polish – keep practising!",
      "oh hello there", "hello"⟩ : EvalResult).word_errors.map WordError.position =
      List.range (pySplit (normalise "hello")).length ∧
    (⟨82, 100, 40, [⟨"hello", "hello", "hello", 0, true⟩],
      "Great job! Just a few words to polish – keep practising!",
      "oh hello there", "hello"⟩ : EvalResult).word_errors.length =
      (pySplit (normalise "hello")).length :=
  C3_coverage "oh hello there" "hello" _ (by decide)

def c4Expected : String :=
  "w1 w2 w3 w4 w5 w6 w7 w8 w9 w10 w11 w12 w13 w14 w15 w16 w17 w18 w19 w20 aaaab aaaad aaaaf aaaah aaaaaaaaab z1 z2 z3"

def c4Spoken : String :=
  "w1 w2 w3 w4 w5 w6 w7 w8 w9 w10 w11 w12 w13 w14 w15 w16 w17 w18 w19 w20 aaaac aaaae aaaag aaaai aaaaaaaaacccc"

set_option maxRecDepth 40000 in
set_option maxHeartbeats 8000000 in
unseal Rat.mul Rat.inv Rat.add Rat.sub Rat.ofScientific in
/-- C4, counterexample: on this input the unrounded overall score is
`2069/23 ≈ 89.9565`, which the five-tier lookup maps to the second
message, but the stored rounded score is `90.0`, which the same lookup
maps to the first message — so the feedback in the result differs from
the lookup applied to the rounded score. -/
theorem C4_counterexample :
    (score c4Spoken c4Expected).map
      (fun r => (decide (r.feedback = feedback r.overall_score),
        r.overall_score, r.feedback)) =
      some (false, 90, "Great job! Just a few words to polish – keep practising!") := by
  decide

/-- C4, amended: the feedback in the result agrees with the five-tier
lookup applied to the rounded `overall_score` whenever the unrounded
overall score is clear of the `1/20`-wide half-open band just below each
of the four thresholds (inside such a band rounding to one decimal can
cross the threshold, as the counterexample shows). -/
theorem C4_amended (spoken expected : String) (r : EvalResult)
    (h : score spoken expected = some r)
    (h40 : ¬((40 : ℚ) - 1/20 ≤ scOverall spoken expected ∧ scOverall spoken expected < 40))
    (h60 : ¬((60 : ℚ) - 1/20 ≤ scOverall spoken expected ∧ scOverall spoken expected < 60))
    (h75 : ¬((75 : ℚ) - 1/20 ≤ scOverall spoken expected ∧ scOverall spoken expected < 75))
    (h90 : ¬((90 : ℚ) - 1/20 ≤ scOverall spoken expected ∧ scOverall spoken expected < 90)) :
    r.feedback = feedback r.overall_score := by
  rw [score_eq_some] at h
  obtain rfl := Option.some.inj h
  exact feedback_round_clamp h40 h60 h75 h90

set_option maxHeartbeats 4000000 in
unseal Rat.mul Rat.inv Rat.add Rat.sub Rat.ofScientific scEw scSw scOps scErrors scCredit scAccuracy scOverall in
/-- Witness for C4-amended at `spoken=expected="hello"` (overall score
`100`, clear of all four bands). -/
theorem C4_witness :
    (⟨100, 100, 100, [⟨"hello", "hello", "hello", 0, true⟩],
      "Excellent pronunciation! You sound very natural.", "hello", "hello"⟩
        : EvalResult).feedback =
      feedback (⟨100, 100, 100, [⟨"hello", "hello", "hello", 0, true⟩],
        "Excellent pronunciation! You sound very natural.", "hello", "hello"⟩
          : EvalResult).overall_score :=
  C4_amended "hello" "hello" _ (by decide) (by decide) (by decide) (by decide) (by decide)

/-- C5: the scoring core never fails: for every pair of input strings —
either or both empty, or the ASR placeholder sentinel — every unchecked
index access is in bounds and a full result is returned. -/
theorem C5_no_failure (spoken expected : String) :
    (score spoken expected).isSome = true := by
  rw [score_eq_some]
  rfl

set_option maxHeartbeats 4000000 in
unseal Rat.mul Rat.inv Rat.add Rat.sub Rat.ofScientific in
/-- C6: for `expected="hello"`, `spoken="oh hello there"` the result has
exactly one WordError (for `"hello"`, correct), `accuracy_score=100.0`,
`fluency_score=40.0` (length ratio `3.0`), and `overall_score=82.0`. -/
theorem C6_insertion_case :
    score "oh hello there" "hello" = some ⟨82, 100, 40,
      [⟨"hello", "hello", "hello", 0, true⟩],
      "Great job! Just a few words to polish – keep practising!",
      "oh hello there", "hello"⟩ := by
  decide

/-- C7: the fluency score is `100` on an empty expected word list; on a
non-empty one it is `100` when the length ratio lies in `[0.8, 1.2]`
(bounds inclusive), `70` when it lies in `[0.5, 1.5]` but outside the
first band, and `40` when it lies outside both bands. -/
theorem C7_fluency_bands (sw ew : List String) :
    (ew = [] → fluency_score sw ew = 100) ∧
    (ew ≠ [] →
      (((0.8 : ℚ) ≤ ((sw.length : ℚ) / (ew.length : ℚ)) ∧
          ((sw.length : ℚ) / (ew.length : ℚ)) ≤ 1.2) →
        fluency_score sw ew = 100) ∧
      (¬((0.8 : ℚ) ≤ ((sw.length : ℚ) / (ew.length : ℚ)) ∧
          ((sw.length : ℚ) / (ew.length : ℚ)) ≤ 1.2) →
        ((0.5 : ℚ) ≤ ((sw.length : ℚ) / (ew.length : ℚ)) ∧
          ((sw.length : ℚ) / (ew.length : ℚ)) ≤ 1.5) →
        fluency_score sw ew = 70) ∧
      (¬((0.8 : ℚ) ≤ ((sw.length : ℚ) / (ew.length : ℚ)) ∧
          ((sw.length : ℚ) / (ew.length : ℚ)) ≤ 1.2) →
        ¬((0.5 : ℚ) ≤ ((sw.length : ℚ) / (ew.length : ℚ)) ∧
          ((sw.length : ℚ) / (ew.length : ℚ)) ≤ 1.5) →
        fluency_score sw ew = 40)) := by
  refine ⟨fun h => by rw [fluency_score, if_pos h], fun hne => ⟨?_, ?_, ?_⟩⟩
  · intro h1
    rw [fluency_score, if_neg hne, if_pos h1]
  · intro h1 h2
    rw [fluency_score, if_neg hne, if_neg h1, if_pos h2]
  · intro h1 h2
    rw [fluency_score, if_neg hne, if_neg h1, if_neg h2]

unseal Rat.mul Rat.inv Rat.add Rat.sub Rat.ofScientific in
/-- Witness for C7 at one spoken word against two expected words (length
ratio `0.5`: middle band). -/
theorem C7_witness : fluency_score ["a"] ["b", "c"] = 70 :=
  ((C7_fluency_bands ["a"] ["b", "c"]).2 (by decide)).2.1 (by decide) (by decide)

unseal Rat.mul Rat.inv Rat.add Rat.sub Rat.ofScientific in
/-- C8: overall scores of exactly `90`, `75`, `60`, `40` map to the four
upper-tier messages (inclusive lower bounds), and `39.9` maps to the
fifth message, distinct from the other four. -/
theorem C8_feedback_tiers :
    feedback 90 = "Excellent pronunciation! You sound very natural." ∧
    feedback 75 = "Great job! Just a few words to polish – keep practising!" ∧
    feedback 60 = "Good effort! Try listening to the slow version and repeating." ∧
    feedback 40 = "You're making progress! Focus on the highlighted words and try again." ∧
    feedback (39.9 : ℚ) =
      "Keep going! Every attempt makes you better. Try saying it slowly first." ∧
    feedback (39.9 : ℚ) ≠ feedback 90 ∧ feedback (39.9 : ℚ) ≠ feedback 75 ∧
    feedback (39.9 : ℚ) ≠ feedback 60 ∧ feedback (39.9 : ℚ) ≠ feedback 40 := by
  decide

/-- C9: scoring is deterministic — it is a pure function of the two
argument strings, so two invocations on identical arguments yield
identical results in every field. -/
theorem C9_deterministic (spoken expected : String) (r1 r2 : EvalResult)
    (h1 : score spoken expected = some r1) (h2 : score spoken expected = some r2) :
    r1 = r2 := by
  rw [h1] at h2
  exact Option.some.inj h2

set_option maxHeartbeats 4000000 in
unseal Rat.mul Rat.inv Rat.add Rat.sub Rat.ofScientific in
/-- Witness for C9 at `spoken="anything"`, `expected=""`. -/
theorem C9_witness :
    (⟨30, 0, 100, [],
      "Keep going! Every attempt makes you better. Try saying it slowly first.",
      "anything", ""⟩ : EvalResult) =
    (⟨30, 0, 100, [],
      "Keep going! Every attempt makes you better. Try saying it slowly first.",
      "anything", ""⟩ : EvalResult) :=
  C9_deterministic "anything" "" _ _ (by decide) (by decide)

/-- C10: every WordError whose spoken field is the empty string — from a
delete op, or from a replace-op pair that ran past the end of the spoken
word list — is classified incorrect. -/
theorem C10_empty_spoken_incorrect (spoken expected : String) (r : EvalResult)
    (h : score spoken expected = some r) :
    ∀ we ∈ r.word_errors, we.spoken = "" → we.is_correct = false := by
  rw [score_eq_some] at h
  obtain rfl := Option.some.inj h
  exact scErrors_empty_spoken spoken expected

set_option maxHeartbeats 4000000 in
unseal Rat.mul Rat.inv Rat.add Rat.sub Rat.ofScientific in
/-- Witness for C10 at `spoken="ab"`, `expected="ab cd"` (the word `cd`
is deleted, reported with empty spoken counterpart and incorrect). -/
theorem C10_witness :
    (⟨"cd", "cd", "", 1, false⟩ : WordError).is_correct = false :=
  C10_empty_spoken_incorrect "ab" "ab cd"
    ⟨56, 50, 70, [⟨"ab", "ab", "ab", 0, true⟩, ⟨"cd", "cd", "", 1, false⟩],
      "You're making progress! Focus on the highlighted words and try again.",
      "ab", "ab cd"⟩ (by decide)
    ⟨"cd", "cd", "", 1, false⟩ (by decide) rfl

end Pron
